import Mathlib

/-!
# Verification of the local scrum-board state store (`scrum_cli.py`)

A shallow embedding of the JSON-file-backed Kanban board manipulated by the
command-line tool `scrum_cli.py`, together with proofs of its consistency
properties.

Modelling conventions:
* The on-disk JSON documents are modelled as in-memory values held in a
  `Store` record: the configuration document, the board document and the
  per-issue documents (the issue directory is a dictionary keyed by the
  integer issue id, mirroring the zero-padded file name `NNN.json`, which is
  injective in the id).
* Python dictionaries are modelled as insertion-ordered association lists
  (`List (κ × α)`) with `dictGet` (lookup, `KeyError` becomes `none`) and
  `dictSet` (update in place, or append a fresh key at the end) — exactly
  the observable behaviour of a `dict` loaded from JSON.
* An operation that would raise an uncaught exception (`KeyError` on a
  missing board column, `FileNotFoundError` on a missing document) returns
  `none`: the process aborts and the claim-relevant state is not produced.
* Wall-clock timestamps (`datetime.now().isoformat()`) are passed in as an
  explicit `String` parameter `now`.
-/

/-- Python `dict` lookup (`d[k]`): the value at the first entry whose key is
`k`, or `none` (a `KeyError`) when no entry has key `k`. -/
def dictGet {κ α : Type} [DecidableEq κ] : List (κ × α) → κ → Option α
  | [], _ => none
  | (k, v) :: rest, k2 => if k = k2 then some v else dictGet rest k2

/-- Python `dict` assignment (`d[k] = v`): replace the value at the first
entry whose key is `k`, keeping its position; append `(k, v)` at the end when
the key is fresh. -/
def dictSet {κ α : Type} [DecidableEq κ] : List (κ × α) → κ → α → List (κ × α)
  | [], k, v => [(k, v)]
  | (k2, v2) :: rest, k, v =>
      if k2 = k then (k, v) :: rest else (k2, v2) :: dictSet rest k v

/-- The configuration document `config.json`:
`{ "project": <string>, "next_issue_id": <integer> }`. -/
structure Config where
  project : String
  next_issue_id : Nat
deriving DecidableEq

/-- One issue document `issues/NNN.json`, with exactly the fields written by
`create_issue`. -/
structure Issue where
  id : Nat
  title : String
  body : String
  status : String
  assignee : String
  labels : List String
  created : String
  updated : String
  sprint : Option String
  acceptance_criteria : List String
  branch : Option String
  pr : Option String
deriving DecidableEq

/-- The board document `board.json`: a dictionary from column name to the
ordered list of issue ids in that column. -/
abbrev Board := List (String × List Nat)

/-- The whole persistent store: the three kinds of JSON documents on disk.
The configuration document is taken to be present and well-formed (every
claim under study starts from a store whose `config.json` exists). -/
structure Store where
  config : Config
  board : Board
  issues : List (Nat × Issue)
deriving DecidableEq

/-- The five fixed workflow columns, in board order. -/
def fixedColumns : List String := ["backlog", "todo", "in_progress", "review", "done"]

/-- `get_next_issue_id`: return the counter's current value and persist the
configuration with the counter incremented. -/
def get_next_issue_id (c : Config) : Nat × Config :=
  (c.next_issue_id, { c with next_issue_id := c.next_issue_id + 1 })

/-- The non-mandatory arguments of `create_issue` (`title`, `assignee` and
`labels` are positional; the CLI always passes `labels` as a list, which is
the branch `isinstance(labels, list)` of the source). -/
structure CreateArgs where
  title : String
  assignee : String
  labels : List String
  body : String := ""
  acceptance_criteria : Option (List String) := none
  sprint : Option String := none
deriving DecidableEq

/-- `create_issue`: allocate an id from the config counter, write the issue
document with status `"backlog"`, then append the id to the board's
`backlog` column.  `none` models the uncaught `KeyError` raised by
`board['backlog']` when the board document has no `backlog` key. -/
def create_issue (s : Store) (a : CreateArgs) (now : String) : Option (Nat × Store) :=
  let alloc := get_next_issue_id s.config
  let issue_id := alloc.1
  let issue : Issue :=
    { id := issue_id
      title := a.title
      body := a.body
      status := "backlog"
      assignee := a.assignee
      labels := a.labels
      created := now
      updated := now
      sprint := a.sprint
      acceptance_criteria := a.acceptance_criteria.getD []
      branch := none
      pr := none }
  match dictGet s.board "backlog" with
  | none => none
  | some bl =>
      some (issue_id,
        { config := alloc.2
          board := dictSet s.board "backlog" (bl ++ [issue_id])
          issues := dictSet s.issues issue_id issue })

/-- `update_issue_status`: load the issue (`none` when its document is
missing), remove its id from the column named by its current `status` field
(`board[old_status]` raises `KeyError`, i.e. `none`, when that column is
absent; the removal itself is a no-op when the id is not listed there), then
append the id to column `new_status` unless already present
(`board[new_status]` raises `KeyError` when absent — no column is created),
and finally persist the issue with `status = new_status` and a refreshed
`updated` timestamp. -/
def update_issue_status (s : Store) (issue_id : Nat) (new_status : String)
    (now : String) : Option Store :=
  match dictGet s.issues issue_id with
  | none => none
  | some issue =>
    match dictGet s.board issue.status with
    | none => none
    | some oldCol =>
      let board1 :=
        if issue_id ∈ oldCol then dictSet s.board issue.status (oldCol.erase issue_id)
        else s.board
      match dictGet board1 new_status with
      | none => none
      | some newCol =>
        let board2 :=
          if issue_id ∈ newCol then board1
          else dictSet board1 new_status (newCol ++ [issue_id])
        some { s with
                board := board2
                issues := dictSet s.issues issue_id
                  { issue with status := new_status, updated := now } }

/-- The issue document written by `create_issue` (the same record as the
inline dictionary literal of `create_issue`). -/
def madeIssue (s : Store) (a : CreateArgs) (now : String) : Issue :=
  { id := s.config.next_issue_id
    title := a.title
    body := a.body
    status := "backlog"
    assignee := a.assignee
    labels := a.labels
    created := now
    updated := now
    sprint := a.sprint
    acceptance_criteria := a.acceptance_criteria.getD []
    branch := none
    pr := none }

/-- `get_issue`: the issue document for an id, or `none` (reported as "not
found", not an exception) when the document does not exist. -/
def get_issue (s : Store) (issue_id : Nat) : Option Issue :=
  dictGet s.issues issue_id

/-- One pass of `list_issues` over a list of column names: for each column,
`board[col]` (a `KeyError`, i.e. `none`, when the column is absent), skip
empty columns, and within a column print exactly the issues whose documents
resolve (`get_issue` returning `None` skips the id silently). -/
def listCols (s : Store) : List String → Option (List (String × List Issue))
  | [] => some []
  | c :: rest =>
    match dictGet s.board c with
    | none => none
    | some l =>
      match listCols s rest with
      | none => none
      | some r =>
          some (if l.isEmpty then r
                else (c, l.filterMap fun i => get_issue s i) :: r)

/-- `list_issues`: list one column when a status filter is given (Python's
truthiness sends the empty string to the all-columns branch as well), or all
five fixed columns otherwise. -/
def list_issues (s : Store) (status : Option String) : Option (List (String × List Issue)) :=
  match status with
  | some c => if c = "" then listCols s fixedColumns else listCols s [c]
  | none => listCols s fixedColumns

/-- The `issues` dictionary built by `render_markdown`: walk the five fixed
columns in order (`board[col]` raises `KeyError` when one is missing) and
store each id whose document resolves, overwriting duplicates. -/
def collectCols (s : Store) (acc : List (Nat × Issue)) :
    List String → Option (List (Nat × Issue))
  | [] => some acc
  | c :: rest =>
    match dictGet s.board c with
    | none => none
    | some l =>
        collectCols s
          (l.foldl (fun a i =>
            match get_issue s i with
            | none => a
            | some iss => dictSet a i iss) acc) rest

/-- Python's `round` applied to the exact rational `n / d` (with `d > 0`):
round to the nearest integer, ties to the even neighbour.  The source
computes `round(done_count / total * 100)` on floats; the embedding uses the
exact value of that expression. -/
def roundHalfEven (n d : Nat) : Nat :=
  let q := n / d
  let r := n % d
  if 2 * r < d then q
  else if d < 2 * r then q + 1
  else if q % 2 = 0 then q else q + 1

/-- The summary block of `render_markdown`: `(total, done_count, progress)`
where `total = len(issues)` for the dictionary of resolving issues,
`done_count = len(board["done"])`, and
`progress = round(done_count / total * 100)` guarded to `0` when
`total == 0`. -/
def render_markdown_summary (s : Store) : Option (Nat × Nat × Nat) :=
  match collectCols s [] fixedColumns with
  | none => none
  | some issues =>
    match dictGet s.board "done" with
    | none => none
    | some dl =>
      let total := issues.length
      let done_count := dl.length
      let progress :=
        if 0 < total then roundHalfEven (done_count * 100) total else 0
      some (total, done_count, progress)

/-- Modelled from the spec: "total issue count = number of issues for which
the per-column documents actually resolve" — the number of distinct ids
listed in the five fixed columns whose issue document resolves.  Written
from the spec's words, to be compared with the `total` computed by
`render_markdown`. -/
def specTotal (s : Store) : Nat :=
  (((fixedColumns.map fun c => (dictGet s.board c).getD []).flatten.dedup.filter
      fun i => (get_issue s i).isSome).length)

/-- A sequence of `create_issue` calls (each with its arguments and its
wall-clock timestamp), returning the list of allocated ids; `none` as soon
as one call aborts. -/
def createMany (s : Store) : List (CreateArgs × String) → Option (List Nat × Store)
  | [] => some ([], s)
  | (a, t) :: rest =>
    match create_issue s a t with
    | none => none
    | some (id, s2) =>
      match createMany s2 rest with
      | none => none
      | some (ids, s3) => some (id :: ids, s3)

/-- The JSON values producible by `json.dump` for these documents (`true`
and `false` never occur in them; numbers are the integer ids and counters). -/
inductive Json where
  | null : Json
  | num : Int → Json
  | str : String → Json
  | arr : List Json → Json
  | obj : List (String × Json) → Json

/-- An optional string field (`None` serialises to `null`). -/
def optStrJson : Option String → Json
  | none => Json.null
  | some s => Json.str s

/-- A list of strings as a JSON array of strings. -/
def strsToJson : List String -> List Json
  | [] => []
  | s :: rest => Json.str s :: strsToJson rest

/-- A list of ids as a JSON array of integers. -/
def natsToJson : List Nat -> List Json
  | [] => []
  | i :: rest => Json.num (i : Int) :: natsToJson rest

/-- `json.dump` of an issue document: the dictionary literal of
`create_issue`, field for field. -/
def issueToJson (i : Issue) : Json :=
  Json.obj
    [("id", Json.num i.id),
     ("title", Json.str i.title),
     ("body", Json.str i.body),
     ("status", Json.str i.status),
     ("assignee", Json.str i.assignee),
     ("labels", Json.arr (strsToJson i.labels)),
     ("created", Json.str i.created),
     ("updated", Json.str i.updated),
     ("sprint", optStrJson i.sprint),
     ("acceptance_criteria", Json.arr (strsToJson i.acceptance_criteria)),
     ("branch", optStrJson i.branch),
     ("pr", optStrJson i.pr)]

/-- `json.dump` of one board entry per column. -/
def boardEntriesToJson : Board -> List (String × Json)
  | [] => []
  | (k, l) :: rest => (k, Json.arr (natsToJson l)) :: boardEntriesToJson rest

/-- `json.dump` of the board document: one object entry per column. -/
def boardToJson (b : Board) : Json :=
  Json.obj (boardEntriesToJson b)

/-- Read a JSON string. -/
def asString : Json → Option String
  | Json.str s => some s
  | _ => none

/-- Read a JSON integer as a non-negative id. -/
def asNat : Json → Option Nat
  | Json.num n => if 0 ≤ n then some n.toNat else none
  | _ => none

/-- Read a JSON `null`-or-string as an optional string. -/
def asOptString : Json → Option (Option String)
  | Json.null => some none
  | Json.str s => some (some s)
  | _ => none

/-- Read a list of JSON strings. -/
def allStrings : List Json → Option (List String)
  | [] => some []
  | j :: rest => do
      let s ← asString j
      let r ← allStrings rest
      pure (s :: r)

/-- Read a list of JSON integers as ids. -/
def allNats : List Json → Option (List Nat)
  | [] => some []
  | j :: rest => do
      let n ← asNat j
      let r ← allNats rest
      pure (n :: r)

/-- `json.load` of an issue document: the field accesses the program
performs on a loaded issue, assembled back into an `Issue`. -/
def issueOfJson : Json → Option Issue
  | Json.obj f => do
      let id ← (dictGet f "id").bind asNat
      let title ← (dictGet f "title").bind asString
      let body ← (dictGet f "body").bind asString
      let status ← (dictGet f "status").bind asString
      let assignee ← (dictGet f "assignee").bind asString
      let labels ← (dictGet f "labels").bind fun j =>
        match j with | Json.arr l => allStrings l | _ => none
      let created ← (dictGet f "created").bind asString
      let updated ← (dictGet f "updated").bind asString
      let sprint ← (dictGet f "sprint").bind asOptString
      let ac ← (dictGet f "acceptance_criteria").bind fun j =>
        match j with | Json.arr l => allStrings l | _ => none
      let branch ← (dictGet f "branch").bind asOptString
      let pr ← (dictGet f "pr").bind asOptString
      pure { id := id, title := title, body := body, status := status,
             assignee := assignee, labels := labels, created := created,
             updated := updated, sprint := sprint, acceptance_criteria := ac,
             branch := branch, pr := pr }
  | _ => none

/-- `json.load` of the board object's entries. -/
def boardEntriesOfJson : List (String × Json) → Option Board
  | [] => some []
  | (k, j) :: rest => do
      let l ← match j with | Json.arr a => allNats a | _ => none
      let r ← boardEntriesOfJson rest
      pure ((k, l) :: r)

/-- `json.load` of the board document. -/
def boardOfJson : Json → Option Board
  | Json.obj f => boardEntriesOfJson f
  | _ => none

/-- How many times id `i` is listed across all columns of the board. -/
def boardCount (b : Board) (i : Nat) : Nat :=
  (b.map fun p => p.2.count i).sum

/-- A well-formed dictionary: no duplicate keys (always true of a Python
`dict` loaded from JSON). -/
def DictWF {κ α : Type} (d : List (κ × α)) : Prop :=
  (d.map Prod.fst).Nodup

instance {κ α : Type} [DecidableEq κ] (d : List (κ × α)) : Decidable (DictWF d) := by
  unfold DictWF; infer_instance

/-- Every occurrence of id `i` in the board lies in an entry keyed `c`. -/
def onlyIn (b : Board) (c : String) (i : Nat) : Prop :=
  ∀ p ∈ b, i ∈ p.2 → p.1 = c

instance (b : Board) (c : String) (i : Nat) : Decidable (onlyIn b c i) := by
  unfold onlyIn; infer_instance

/-- The store invariant maintained by the tool:
the board and issue dictionaries have no duplicate keys; every id listed on
the board is listed exactly once across all columns; every issue document's
`status` field names the (sole) column listing its id; and every id on the
board or in the issue directory is below the allocation counter (so freshly
allocated ids are not yet on the board). -/
def StoreInv (s : Store) : Prop :=
  DictWF s.board ∧ DictWF s.issues ∧
  (∀ p ∈ s.board, ∀ i ∈ p.2, boardCount s.board i = 1) ∧
  (∀ q ∈ s.issues, onlyIn s.board q.2.status q.1) ∧
  (∀ p ∈ s.board, ∀ i ∈ p.2, i < s.config.next_issue_id) ∧
  (∀ q ∈ s.issues, q.1 < s.config.next_issue_id)

instance (s : Store) : Decidable (StoreInv s) := by
  unfold StoreInv; infer_instance

/-- A concrete store: one issue, sitting in the backlog column. -/
def issueA : Issue :=
  { id := 1, title := "a", body := "", status := "backlog", assignee := "al",
    labels := ["bug"], created := "t0", updated := "t0", sprint := none,
    acceptance_criteria := [], branch := none, pr := none }

def storeA : Store :=
  { config := { project := "p", next_issue_id := 2 }
    board := [("backlog", [1]), ("todo", []), ("in_progress", []),
              ("review", []), ("done", [])]
    issues := [(1, issueA)] }

def argsA : CreateArgs := { title := "x", assignee := "al", labels := ["bug"] }

/-- `storeA` after `create_issue storeA argsA "t1"`. -/
def issueA2 : Issue :=
  { id := 2, title := "x", body := "", status := "backlog", assignee := "al",
    labels := ["bug"], created := "t1", updated := "t1", sprint := none,
    acceptance_criteria := [], branch := none, pr := none }

def storeA1 : Store :=
  { config := { project := "p", next_issue_id := 3 }
    board := [("backlog", [1, 2]), ("todo", []), ("in_progress", []),
              ("review", []), ("done", [])]
    issues := [(1, issueA), (2, issueA2)] }

/-- `storeA1` after `create_issue storeA1 argsA "t2"`. -/
def issueA3 : Issue := { issueA2 with id := 3, created := "t2", updated := "t2" }

def storeA2 : Store :=
  { config := { project := "p", next_issue_id := 4 }
    board := [("backlog", [1, 2, 3]), ("todo", []), ("in_progress", []),
              ("review", []), ("done", [])]
    issues := [(1, issueA), (2, issueA2), (3, issueA3)] }

/-- A concrete store whose `done` column lists issue 5, which has no
document. -/
def issueB : Issue := { issueA with id := 3, status := "done" }

def storeB : Store :=
  { config := { project := "p", next_issue_id := 6 }
    board := [("backlog", []), ("todo", []), ("in_progress", []),
              ("review", []), ("done", [3, 5])]
    issues := [(3, issueB)] }

section DictLemmas

variable {κ α : Type} [DecidableEq κ]

theorem dictGet_dictSet (d : List (κ × α)) (k k2 : κ) (v : α) :
    dictGet (dictSet d k v) k2 = if k = k2 then some v else dictGet d k2 := by
  induction d with
  | nil => simp [dictGet, dictSet]
  | cons p rest ih =>
    obtain ⟨k0, v0⟩ := p
    by_cases h : k0 = k
    · subst h
      simp only [dictSet, if_pos rfl, dictGet]
      by_cases h2 : k0 = k2 <;> simp [h2]
    · simp only [dictSet, if_neg h, dictGet]
      by_cases h2 : k0 = k2
      · subst h2
        have : ¬ k = k0 := fun hh => h hh.symm
        simp [dictGet, this]
      · simp [dictGet, h2, ih]

theorem keys_dictSet (d : List (κ × α)) (k : κ) (v : α) :
    (dictSet d k v).map Prod.fst =
      if k ∈ d.map Prod.fst then d.map Prod.fst else d.map Prod.fst ++ [k] := by
  induction d with
  | nil => simp [dictSet]
  | cons p rest ih =>
    obtain ⟨k0, v0⟩ := p
    by_cases h : k0 = k
    · subst h; simp [dictSet]
    · have : ¬ k = k0 := fun hh => h hh.symm
      by_cases hm : k ∈ rest.map Prod.fst
      · simp [dictSet, h, ih, hm, this]
      · simp [dictSet, h, ih, hm, this]

theorem dictWF_dictSet (d : List (κ × α)) (k : κ) (v : α) (h : DictWF d) :
    DictWF (dictSet d k v) := by
  unfold DictWF at h ⊢
  rw [keys_dictSet]
  by_cases hm : k ∈ d.map Prod.fst
  · simpa [hm] using h
  · simp only [hm, if_false]
    refine List.Nodup.append h (List.nodup_singleton _) ?_
    intro a ha hb
    simp only [List.mem_singleton] at hb
    subst hb
    exact hm ha

theorem dictGet_mem {d : List (κ × α)} {k : κ} {v : α} (h : dictGet d k = some v) :
    (k, v) ∈ d := by
  induction d with
  | nil => simp [dictGet] at h
  | cons p rest ih =>
    obtain ⟨k0, v0⟩ := p
    by_cases h0 : k0 = k
    · subst h0
      simp [dictGet] at h
      simp [h]
    · simp only [dictGet, if_neg h0] at h
      exact List.mem_cons_of_mem _ (ih h)

theorem dictGet_isSome_iff (d : List (κ × α)) (k : κ) :
    (dictGet d k).isSome ↔ k ∈ d.map Prod.fst := by
  induction d with
  | nil => simp [dictGet]
  | cons p rest ih =>
    obtain ⟨k0, v0⟩ := p
    by_cases h0 : k0 = k
    · subst h0; simp [dictGet]
    · simp only [dictGet, if_neg h0, List.map_cons, List.mem_cons, ih]
      constructor
      · exact fun hh => Or.inr hh
      · rintro (hh | hh)
        · exact absurd hh.symm h0
        · exact hh

theorem dictSet_dictSet_same (d : List (κ × α)) (k : κ) (v w : α) :
    dictSet (dictSet d k v) k w = dictSet d k w := by
  induction d with
  | nil => simp [dictSet]
  | cons p rest ih =>
    obtain ⟨k0, v0⟩ := p
    by_cases h : k0 = k
    · subst h; simp [dictSet]
    · simp [dictSet, h, ih]

theorem dictSet_split {d : List (κ × α)} {k : κ} {w : α} (h : dictGet d k = some w) :
    ∃ d1 d2, d = d1 ++ (k, w) :: d2 ∧ (∀ p ∈ d1, p.1 ≠ k) ∧
      ∀ v, dictSet d k v = d1 ++ (k, v) :: d2 := by
  induction d with
  | nil => simp [dictGet] at h
  | cons p rest ih =>
    obtain ⟨k0, v0⟩ := p
    by_cases h0 : k0 = k
    · subst h0
      have hw : v0 = w := by simpa [dictGet] using h
      subst hw
      exact ⟨[], rest, rfl, by simp, fun v => by simp [dictSet]⟩
    · simp only [dictGet, if_neg h0] at h
      obtain ⟨d1, d2, hd, hne, hset⟩ := ih h
      exact ⟨(k0, v0) :: d1, d2, by simp [hd], by simpa [h0] using hne,
        fun v => by simp [dictSet, h0, hset v]⟩

end DictLemmas

@[simp] theorem boardCount_nil (i : Nat) : boardCount [] i = 0 := rfl

@[simp] theorem boardCount_cons (p : String × List Nat) (b : Board) (i : Nat) :
    boardCount (p :: b) i = p.2.count i + boardCount b i := rfl

@[simp] theorem boardCount_append (b1 b2 : Board) (i : Nat) :
    boardCount (b1 ++ b2) i = boardCount b1 i + boardCount b2 i := by
  simp [boardCount]

theorem count_le_boardCount {b : Board} {p : String × List Nat} (hp : p ∈ b) (i : Nat) :
    p.2.count i ≤ boardCount b i := by
  induction b with
  | nil => simp at hp
  | cons q rest ih =>
    rcases List.mem_cons.mp hp with h | h
    · subst h; simp
    · have := ih h
      simp only [boardCount_cons]
      omega

theorem boardCount_eq_zero_iff (b : Board) (i : Nat) :
    boardCount b i = 0 ↔ ∀ p ∈ b, i ∉ p.2 := by
  induction b with
  | nil => simp
  | cons q rest ih =>
    simp only [boardCount_cons, Nat.add_eq_zero, ih, List.mem_cons]
    constructor
    · rintro ⟨h0, h1⟩ p hp
      rcases hp with rfl | hp
      · intro hm
        have := List.count_pos_iff.2 hm
        omega
      · exact h1 p hp
    · intro h
      refine ⟨List.count_eq_zero.mpr (h q (Or.inl rfl)), fun p hp => h p (Or.inr hp)⟩

theorem boardCount_dictSet {b : Board} {k : String} {l : List Nat}
    (h : dictGet b k = some l) (v : List Nat) (i : Nat) :
    boardCount (dictSet b k v) i + l.count i = boardCount b i + v.count i := by
  obtain ⟨d1, d2, hd, -, hset⟩ := dictSet_split h
  rw [hset v, hd]
  simp only [boardCount_append, boardCount_cons]
  omega

theorem dictGet_count_le {b : Board} {k : String} {l : List Nat}
    (h : dictGet b k = some l) (i : Nat) : l.count i ≤ boardCount b i :=
  count_le_boardCount (dictGet_mem h) i

theorem dictGet_count_add_le {b : Board} {k : String} {l : List Nat}
    {p : String × List Nat} (h : dictGet b k = some l) (hp : p ∈ b)
    (hne : p.1 ≠ k) (i : Nat) : l.count i + p.2.count i ≤ boardCount b i := by
  induction b with
  | nil => simp at hp
  | cons q rest ih =>
    obtain ⟨k0, v0⟩ := q
    by_cases h0 : k0 = k
    · subst h0
      have hl : v0 = l := by simpa [dictGet] using h
      subst hl
      have hpr : p ∈ rest := by
        rcases List.mem_cons.mp hp with h1 | h1
        · exact absurd (congrArg Prod.fst h1) hne
        · exact h1
      have := count_le_boardCount hpr i
      simp only [boardCount_cons]
      omega
    · simp only [dictGet, if_neg h0] at h
      rcases List.mem_cons.mp hp with h1 | h1
      · subst h1
        have := dictGet_count_le h i
        simp only [boardCount_cons]
        omega
      · have := ih h h1
        simp only [boardCount_cons]
        omega

theorem dictGet_of_mem_wf {κ α : Type} [DecidableEq κ] {d : List (κ × α)}
    {p : κ × α} (hwf : DictWF d) (hp : p ∈ d) : dictGet d p.1 = some p.2 := by
  induction d with
  | nil => simp at hp
  | cons q rest ih =>
    obtain ⟨k0, v0⟩ := q
    have hwf2 : DictWF rest := by
      have := hwf
      unfold DictWF at this ⊢
      simpa using (List.nodup_cons.mp (by simpa using this)).2
    rcases List.mem_cons.mp hp with h1 | h1
    · subst h1; simp [dictGet]
    · have hk : p.1 ∈ rest.map Prod.fst := List.mem_map.mpr ⟨p, h1, rfl⟩
      have hk0 : k0 ∉ rest.map Prod.fst := by
        have := hwf
        unfold DictWF at this
        exact (List.nodup_cons.mp (by simpa using this)).1
      have hne : ¬ k0 = p.1 := fun hh => hk0 (hh ▸ hk)
      simp only [dictGet, if_neg hne]
      exact ih hwf2 h1

theorem dictWF_split_right {κ α : Type} [DecidableEq κ] {d f1 f2 : List (κ × α)}
    {k : κ} {w : α} (hwf : DictWF d) (hd : d = f1 ++ (k, w) :: f2) :
    ∀ q ∈ f2, q.1 ≠ k := by
  subst hd
  intro q hq
  unfold DictWF at hwf
  rw [List.map_append] at hwf
  have h2 : (k :: f2.map Prod.fst).Nodup := by
    have h3 := List.Nodup.of_append_right hwf
    rwa [List.map_cons] at h3
  have hk : k ∉ f2.map Prod.fst := (List.nodup_cons.mp h2).1
  exact fun hh => hk (List.mem_map.mpr ⟨q, hq, hh⟩)

/-- Running `update_issue_status` when the issue's id is listed exactly once
on the board, in the column named by its `status` field: the id is erased
from that column, appended at the end of column `new_status`, and the issue
document is rewritten with the new status and timestamp. -/
theorem update_run {s : Store} {id : Nat} {iss : Issue} {l0 ln : List Nat}
    {new t : String}
    (hiss : dictGet s.issues id = some iss)
    (hold : dictGet s.board iss.status = some l0)
    (hmem : id ∈ l0)
    (honce : boardCount s.board id = 1)
    (hln : dictGet (dictSet s.board iss.status (l0.erase id)) new = some ln) :
    update_issue_status s id new t = some
      { config := s.config
        board := dictSet (dictSet s.board iss.status (l0.erase id)) new (ln ++ [id])
        issues := dictSet s.issues id { iss with status := new, updated := t } } ∧
    id ∉ ln ∧
    boardCount (dictSet s.board iss.status (l0.erase id)) id = 0 := by
  have hcl0 : l0.count id = 1 := by
    have h1 := dictGet_count_le hold id
    have h2 := List.count_pos_iff.2 hmem
    omega
  have hb1 : boardCount (dictSet s.board iss.status (l0.erase id)) id = 0 := by
    have h1 := boardCount_dictSet hold (l0.erase id) id
    rw [List.count_erase_self] at h1
    omega
  have hnotln : id ∉ ln := by
    intro hm
    have h1 := dictGet_count_le hln id
    have h2 := List.count_pos_iff.2 hm
    omega
  refine ⟨?_, hnotln, hb1⟩
  simp only [update_issue_status, hiss, hold, if_pos hmem, hln, if_neg hnotln]

/-- Running `create_issue` when the board has a `backlog` column. -/
theorem create_issue_run {s : Store} {a : CreateArgs} {t : String} {bl : List Nat}
    (hbl : dictGet s.board "backlog" = some bl) :
    create_issue s a t = some (s.config.next_issue_id,
      { config := { s.config with next_issue_id := s.config.next_issue_id + 1 }
        board := dictSet s.board "backlog" (bl ++ [s.config.next_issue_id])
        issues := dictSet s.issues s.config.next_issue_id
          { id := s.config.next_issue_id, title := a.title, body := a.body,
            status := "backlog", assignee := a.assignee, labels := a.labels,
            created := t, updated := t, sprint := a.sprint,
            acceptance_criteria := a.acceptance_criteria.getD [],
            branch := none, pr := none } }) := by
  simp only [create_issue, get_next_issue_id, hbl]

/-- A successful `create_issue` determines the backlog column and the
resulting store. -/
theorem create_issue_some {s : Store} {a : CreateArgs} {t : String} {id : Nat}
    {s2 : Store} (h : create_issue s a t = some (id, s2)) :
    ∃ bl, dictGet s.board "backlog" = some bl ∧
      id = s.config.next_issue_id ∧
      s2 = { config := { s.config with next_issue_id := s.config.next_issue_id + 1 }
             board := dictSet s.board "backlog" (bl ++ [s.config.next_issue_id])
             issues := dictSet s.issues s.config.next_issue_id
               { id := s.config.next_issue_id, title := a.title, body := a.body,
                 status := "backlog", assignee := a.assignee, labels := a.labels,
                 created := t, updated := t, sprint := a.sprint,
                 acceptance_criteria := a.acceptance_criteria.getD [],
                 branch := none, pr := none } } := by
  cases hbl : dictGet s.board "backlog" with
  | none => simp [create_issue, hbl] at h
  | some bl =>
    have hr := create_issue_run (a := a) (t := t) hbl
    rw [h] at hr
    have h2 := Option.some.inj hr
    exact ⟨bl, rfl, congrArg Prod.fst h2, congrArg Prod.snd h2⟩

/-- C5: starting from a config whose counter holds `n`, a sequence of
`CreateIssue` calls returns exactly the strictly increasing ids
`n, n + 1, n + 2, ...`: each allocation returns the counter's current value
and persists `counter + 1`. -/
theorem createMany_returns_consecutive_ids (calls : List (CreateArgs × String))
    (s : Store) (ids : List Nat) (s2 : Store)
    (h : createMany s calls = some (ids, s2)) :
    ids = List.range' s.config.next_issue_id calls.length := by
  induction calls generalizing s ids s2 with
  | nil =>
    simp only [createMany, Option.some.injEq, Prod.mk.injEq] at h
    simp [← h.1]
  | cons c rest ih =>
    obtain ⟨a, t⟩ := c
    cases hc : create_issue s a t with
    | none => simp [createMany, hc] at h
    | some p =>
      obtain ⟨id, sMid⟩ := p
      cases hrest : createMany sMid rest with
      | none => simp [createMany, hc, hrest] at h
      | some q =>
        obtain ⟨ids2, s3⟩ := q
        simp only [createMany, hc, hrest, Option.some.injEq, Prod.mk.injEq] at h
        obtain ⟨h1, -⟩ := h
        obtain ⟨bl, -, hid, hs⟩ := create_issue_some hc
        have hnext : sMid.config.next_issue_id = s.config.next_issue_id + 1 := by
          rw [hs]
        have hih := ih sMid ids2 s3 hrest
        rw [← h1, hih, hnext, hid, List.length_cons, List.range'_succ]

/-- C5 witness: two creations on `storeA` (counter 2) return ids `[2, 3]`. -/
theorem createMany_returns_consecutive_ids_witness :
    createMany storeA [(argsA, "t1"), (argsA, "t2")] = some ([2, 3], storeA2) ∧
    [2, 3] = List.range' storeA.config.next_issue_id 2 :=
  ⟨by decide, createMany_returns_consecutive_ids [(argsA, "t1"), (argsA, "t2")]
    storeA [2, 3] storeA2 (by decide)⟩

/-- C6: `create_issue` on a board that does not already contain the
allocated id succeeds, the new id appears exactly once on the board, in the
`backlog` column (appended at the end), and the persisted issue document's
`status` field is `"backlog"`. -/
theorem create_issue_adds_to_backlog (s : Store) (a : CreateArgs) (t : String)
    (bl : List Nat)
    (hbl : dictGet s.board "backlog" = some bl)
    (hfresh : boardCount s.board s.config.next_issue_id = 0) :
    ∃ s2, create_issue s a t = some (s.config.next_issue_id, s2) ∧
      boardCount s2.board s.config.next_issue_id = 1 ∧
      dictGet s2.board "backlog" = some (bl ++ [s.config.next_issue_id]) ∧
      ∃ iss, get_issue s2 s.config.next_issue_id = some iss ∧
        iss.status = "backlog" := by
  refine ⟨_, create_issue_run (a := a) (t := t) hbl, ?_, ?_, ?_⟩
  · show boardCount (dictSet s.board "backlog" (bl ++ [s.config.next_issue_id]))
      s.config.next_issue_id = 1
    have h1 := boardCount_dictSet hbl (bl ++ [s.config.next_issue_id])
      s.config.next_issue_id
    have h2 := dictGet_count_le hbl s.config.next_issue_id
    rw [List.count_append] at h1
    have h3 : ([s.config.next_issue_id] : List Nat).count s.config.next_issue_id = 1 := by
      simp
    omega
  · rw [dictGet_dictSet]
    simp
  · refine ⟨madeIssue s a t, ?_, rfl⟩
    show dictGet (dictSet s.issues s.config.next_issue_id (madeIssue s a t))
      s.config.next_issue_id = some (madeIssue s a t)
    rw [dictGet_dictSet]
    simp

/-- C6 witness: creating an issue on `storeA` (counter 2, board without id
2) places id 2 exactly once, at the end of the backlog column. -/
theorem create_issue_adds_to_backlog_witness :
    (dictGet storeA.board "backlog" = some [1] ∧
     boardCount storeA.board storeA.config.next_issue_id = 0) ∧
    (∃ s2, create_issue storeA argsA "t1" =
        some (storeA.config.next_issue_id, s2) ∧
      boardCount s2.board storeA.config.next_issue_id = 1 ∧
      dictGet s2.board "backlog" =
        some ([1] ++ [storeA.config.next_issue_id]) ∧
      ∃ iss, get_issue s2 storeA.config.next_issue_id = some iss ∧
        iss.status = "backlog") :=
  ⟨⟨by decide, by decide⟩,
   create_issue_adds_to_backlog storeA argsA "t1" [1] (by decide) (by decide)⟩

/-- C10: `create_issue` only touches the `backlog` column of the board:
every other column is returned unchanged, and the new backlog column is the
old one with the new id appended. -/
theorem create_issue_frame (s : Store) (a : CreateArgs) (t : String)
    (id : Nat) (s2 : Store) (h : create_issue s a t = some (id, s2)) :
    (∃ bl, dictGet s.board "backlog" = some bl ∧
       dictGet s2.board "backlog" = some (bl ++ [id])) ∧
    ∀ c, c ≠ "backlog" → dictGet s2.board c = dictGet s.board c := by
  obtain ⟨bl, hbl, hid, hs⟩ := create_issue_some h
  subst hid
  subst hs
  constructor
  · refine ⟨bl, hbl, ?_⟩
    rw [dictGet_dictSet]
    simp
  · intro c hc
    show dictGet (dictSet s.board "backlog" _) c = _
    rw [dictGet_dictSet]
    rw [if_neg fun hh => hc hh.symm]

/-- C10 witness: creating on `storeA` leaves the four non-backlog columns
untouched and appends id 2 to the backlog column. -/
theorem create_issue_frame_witness :
    create_issue storeA argsA "t1" = some (2, storeA1) ∧
    (∃ bl, dictGet storeA.board "backlog" = some bl ∧
       dictGet storeA1.board "backlog" = some (bl ++ [2])) ∧
    ∀ c, c ≠ "backlog" → dictGet storeA1.board c = dictGet storeA.board c :=
  ⟨by decide, create_issue_frame storeA argsA "t1" 2 storeA1 (by decide)⟩

/-- C8: when a board column resolves, listing it never aborts: the output
lists exactly the ids of that column whose issue documents resolve, in
column order, silently skipping ids with no document. -/
theorem list_issues_skips_missing (s : Store) (c : String) (l : List Nat)
    (hc : c ≠ "") (hl : dictGet s.board c = some l) :
    list_issues s (some c) =
      some (if l.isEmpty then []
            else [(c, l.filterMap fun i => get_issue s i)]) := by
  simp [list_issues, hc, listCols, hl]

/-- C8 witness: on `storeB` the done column is `[3, 5]` and issue 5 has no
document; listing `done` yields exactly issue 3 and does not abort. -/
theorem list_issues_skips_missing_witness :
    (("done" : String) ≠ "" ∧ dictGet storeB.board "done" = some [3, 5]) ∧
    list_issues storeB (some "done") =
      some (if ([3, 5] : List Nat).isEmpty then []
            else [("done", ([3, 5] : List Nat).filterMap
                    fun i => get_issue storeB i)]) :=
  ⟨⟨by decide, by decide⟩,
   list_issues_skips_missing storeB "done" [3, 5] (by decide) (by decide)⟩

/-- C3 counterexample: on the concrete store `storeA`, transitioning issue 1
to the unrecognized column name `"blocked"` does not create an ad-hoc
column — the operation aborts (the `KeyError` of `board['blocked']`),
contradicting the claim that it "does not fail". -/
theorem transition_unknown_column_crashes :
    update_issue_status storeA 1 "blocked" "t1" = none := by decide

/-- C3 amended: transitioning to a column name absent from the board's
mapping makes `update_issue_status` fail with a `KeyError` (modelled as
`none`); no ad-hoc column is ever created. -/
theorem transition_unknown_column_fails (s : Store) (id : Nat) (st t : String)
    (hst : dictGet s.board st = none) :
    update_issue_status s id st t = none := by
  cases hiss : dictGet s.issues id with
  | none => simp [update_issue_status, hiss]
  | some iss =>
    cases hold : dictGet s.board iss.status with
    | none => simp [update_issue_status, hiss, hold]
    | some l0 =>
      by_cases hm : id ∈ l0
      · have hb1 : dictGet (dictSet s.board iss.status (l0.erase id)) st = none := by
          rw [dictGet_dictSet]
          by_cases he : iss.status = st
          · rw [he] at hold
            simp [hold] at hst
          · simp [he, hst]
        simp [update_issue_status, hiss, hold, hm, hb1]
      · simp [update_issue_status, hiss, hold, hm, hst]

/-- C3 amended witness: `storeA` has no column `"foo"`, so the transition of
issue 1 to `"foo"` aborts. -/
theorem transition_unknown_column_fails_witness :
    dictGet storeA.board "foo" = none ∧
    update_issue_status storeA 1 "foo" "t9" = none :=
  ⟨by decide, transition_unknown_column_fails storeA 1 "foo" "t9" (by decide)⟩

theorem allStrings_strsToJson (l : List String) :
    allStrings (strsToJson l) = some l := by
  induction l with
  | nil => rfl
  | cons a rest ih => simp [strsToJson, allStrings, asString, ih]

theorem allNats_natsToJson (l : List Nat) :
    allNats (natsToJson l) = some l := by
  induction l with
  | nil => rfl
  | cons a rest ih =>
    simp [natsToJson, allNats, asNat, Int.natCast_nonneg, Int.toNat_natCast, ih]

theorem asOptString_optStrJson (o : Option String) :
    asOptString (optStrJson o) = some o := by
  cases o <;> rfl

/-- C9: serialising an issue or a board document with `save_json` and
reading it back with `load_json` yields a value equal in all fields to the
original (round trip through the JSON representation). -/
theorem save_load_round_trip :
    (∀ i : Issue, issueOfJson (issueToJson i) = some i) ∧
    ∀ b : Board, boardOfJson (boardToJson b) = some b := by
  constructor
  · intro i
    simp [issueToJson, issueOfJson, dictGet, asString, asNat,
      Int.natCast_nonneg, Int.toNat_natCast, allStrings_strsToJson,
      asOptString_optStrJson]
  · intro b
    induction b with
    | nil => rfl
    | cons p rest ih =>
      obtain ⟨k, l⟩ := p
      have ih2 : boardEntriesOfJson (boardEntriesToJson rest) = some rest := by
        simpa [boardToJson, boardOfJson] using ih
      simp [boardToJson, boardOfJson, boardEntriesToJson, boardEntriesOfJson,
        allNats_natsToJson, ih2]

/-- After the erase-then-append step of `update_issue_status`, the target
column holds the id at its end and the id's total board count is 1. -/
theorem update_post_board {s : Store} {id : Nat} {iss : Issue}
    {l0 ln : List Nat} {new : String}
    (hln : dictGet (dictSet s.board iss.status (l0.erase id)) new = some ln)
    (hb1 : boardCount (dictSet s.board iss.status (l0.erase id)) id = 0)
    (hnotln : id ∉ ln) :
    dictGet (dictSet (dictSet s.board iss.status (l0.erase id)) new
      (ln ++ [id])) new = some (ln ++ [id]) ∧
    boardCount (dictSet (dictSet s.board iss.status (l0.erase id)) new
      (ln ++ [id])) id = 1 := by
  constructor
  · rw [dictGet_dictSet]
    simp
  · have h1 := boardCount_dictSet hln (ln ++ [id]) id
    have h2 : ln.count id = 0 := List.count_eq_zero.mpr hnotln
    have h3 : (ln ++ [id]).count id = 1 := by
      rw [List.count_append, h2]
      simp
    omega

/-- C1: for an issue whose document exists and whose status field names the
column holding its id (the id appearing exactly once on the board), and a
newStatus among the five fixed columns (all present), `update_issue_status`
succeeds, and afterwards the id is in column newStatus exactly once and in
no other column, and the persisted issue's status equals newStatus. -/
theorem transitionStatus_moves_issue (s : Store) (id : Nat) (new t : String)
    (iss : Issue) (l0 : List Nat)
    (hiss : dictGet s.issues id = some iss)
    (hold : dictGet s.board iss.status = some l0)
    (hmem : id ∈ l0)
    (honce : boardCount s.board id = 1)
    (hnew : new ∈ fixedColumns)
    (hfix : ∀ c ∈ fixedColumns, (dictGet s.board c).isSome) :
    ∃ s2, update_issue_status s id new t = some s2 ∧
      (∃ l, dictGet s2.board new = some l ∧ l.count id = 1) ∧
      (∀ p ∈ s2.board, p.1 ≠ new → id ∉ p.2) ∧
      boardCount s2.board id = 1 ∧
      ∃ iss2, get_issue s2 id = some iss2 ∧ iss2.status = new := by
  obtain ⟨ln, hln⟩ : ∃ ln,
      dictGet (dictSet s.board iss.status (l0.erase id)) new = some ln := by
    rw [dictGet_dictSet]
    by_cases he : iss.status = new
    · exact ⟨l0.erase id, by rw [if_pos he]⟩
    · rw [if_neg he]
      exact Option.isSome_iff_exists.mp (hfix new hnew)
  obtain ⟨hrun, hnotln, hb1⟩ := update_run (t := t) hiss hold hmem honce hln
  obtain ⟨hget2, hbc2⟩ := update_post_board hln hb1 hnotln
  have hcount1 : (ln ++ [id]).count id = 1 := by
    rw [List.count_append, List.count_eq_zero.mpr hnotln]
    simp
  refine ⟨_, hrun, ⟨ln ++ [id], hget2, hcount1⟩, ?_, hbc2, ?_⟩
  · intro p hp hne hmm
    have hle := dictGet_count_add_le hget2 hp hne id
    have hpos := List.count_pos_iff.2 hmm
    omega
  · refine ⟨{ iss with status := new, updated := t }, ?_, rfl⟩
    show dictGet (dictSet s.issues id { iss with status := new, updated := t })
      id = some { iss with status := new, updated := t }
    rw [dictGet_dictSet]
    simp

/-- C1 witness: moving issue 1 of `storeA` from backlog to todo. -/
theorem transitionStatus_moves_issue_witness :
    (dictGet storeA.issues 1 = some issueA ∧
     dictGet storeA.board issueA.status = some [1] ∧
     boardCount storeA.board 1 = 1) ∧
    (∃ s2, update_issue_status storeA 1 "todo" "t1" = some s2 ∧
      (∃ l, dictGet s2.board "todo" = some l ∧ l.count 1 = 1) ∧
      (∀ p ∈ s2.board, p.1 ≠ "todo" → 1 ∉ p.2) ∧
      boardCount s2.board 1 = 1 ∧
      ∃ iss2, get_issue s2 1 = some iss2 ∧ iss2.status = "todo") :=
  ⟨⟨by decide, by decide, by decide⟩,
   transitionStatus_moves_issue storeA 1 "todo" "t1" issueA [1]
     (by decide) (by decide) (by decide) (by decide) (by decide) (by decide)⟩

/-- C4: `update_issue_status` is idempotent.  For an issue listed exactly
once on the board in the column named by its status field, and a newStatus
column present on the board: running the transition a second time with the
same timestamp input returns the first result store unchanged, and the
board document is unchanged by the second run for any timestamp (only the
issue's `updated` field depends on the clock). -/
theorem transitionStatus_idempotent (s : Store) (id : Nat) (new t : String)
    (iss : Issue) (l0 : List Nat)
    (hiss : dictGet s.issues id = some iss)
    (hold : dictGet s.board iss.status = some l0)
    (hmem : id ∈ l0)
    (honce : boardCount s.board id = 1)
    (hnewSome : (dictGet s.board new).isSome) :
    ∀ s1, update_issue_status s id new t = some s1 →
      update_issue_status s1 id new t = some s1 ∧
      ∀ t2 s2, update_issue_status s1 id new t2 = some s2 →
        s2.board = s1.board := by
  obtain ⟨ln, hln⟩ : ∃ ln,
      dictGet (dictSet s.board iss.status (l0.erase id)) new = some ln := by
    rw [dictGet_dictSet]
    by_cases he : iss.status = new
    · exact ⟨l0.erase id, by rw [if_pos he]⟩
    · rw [if_neg he]
      exact Option.isSome_iff_exists.mp hnewSome
  obtain ⟨hrun, hnotln, hb1⟩ := update_run (t := t) hiss hold hmem honce hln
  obtain ⟨hget2, hbc2⟩ := update_post_board hln hb1 hnotln
  have herase : (ln ++ [id]).erase id = ln := by
    rw [List.erase_append_right _ hnotln]
    simp
  have key : ∀ t2 : String, update_issue_status
      { config := s.config
        board := dictSet (dictSet s.board iss.status (l0.erase id)) new
          (ln ++ [id])
        issues := dictSet s.issues id
          { iss with status := new, updated := t } }
      id new t2 = some
      { config := s.config
        board := dictSet (dictSet s.board iss.status (l0.erase id)) new
          (ln ++ [id])
        issues := dictSet s.issues id
          { iss with status := new, updated := t2 } } := by
    intro t2
    have hiss2 : dictGet (dictSet s.issues id
        { iss with status := new, updated := t }) id =
        some { iss with status := new, updated := t } := by
      rw [dictGet_dictSet]
      simp
    have hold2 : dictGet (dictSet (dictSet s.board iss.status (l0.erase id))
        new (ln ++ [id])) new = some (ln ++ [id]) := hget2
    have hmem2 : id ∈ ln ++ [id] := by simp
    have hln2 : dictGet (dictSet (dictSet (dictSet s.board iss.status
        (l0.erase id)) new (ln ++ [id])) new ((ln ++ [id]).erase id)) new =
        some ((ln ++ [id]).erase id) := by
      rw [dictGet_dictSet]
      simp
    have h := (update_run
      (s := { config := s.config
              board := dictSet (dictSet s.board iss.status (l0.erase id)) new
                (ln ++ [id])
              issues := dictSet s.issues id
                { iss with status := new, updated := t } })
      (t := t2) hiss2 hold2 hmem2 hbc2 hln2).1
    rw [herase] at h
    simpa only [dictSet_dictSet_same] using h
  intro s1 hs1
  rw [hrun] at hs1
  have hs1e := Option.some.inj hs1
  subst hs1e
  refine ⟨key t, ?_⟩
  intro t2 s2 h2
  rw [key t2] at h2
  rw [← Option.some.inj h2]

/-- C4 witness: moving issue 1 of `storeA` to todo twice in a row with the
same timestamp reproduces the state after the first move. -/
theorem transitionStatus_idempotent_witness :
    (dictGet storeA.issues 1 = some issueA ∧
     boardCount storeA.board 1 = 1 ∧
     (dictGet storeA.board "todo").isSome = true) ∧
    ∀ s1, update_issue_status storeA 1 "todo" "t1" = some s1 →
      update_issue_status s1 1 "todo" "t1" = some s1 ∧
      ∀ t2 s2, update_issue_status s1 1 "todo" t2 = some s2 →
        s2.board = s1.board :=
  ⟨⟨by decide, by decide, by decide⟩,
   transitionStatus_idempotent storeA 1 "todo" "t1" issueA [1]
     (by decide) (by decide) (by decide) (by decide) (by decide)⟩

/-- The per-column fold of `render_markdown` inserting resolving issues
into the `issues` dictionary: keys of the result are the keys already
present plus the ids of the column whose documents resolve. -/
theorem foldIns_spec (s : Store) (l : List Nat) :
    ∀ acc : List (Nat × Issue), DictWF acc →
      DictWF (l.foldl (fun a i => match get_issue s i with
        | none => a
        | some iss => dictSet a i iss) acc) ∧
      ∀ j, j ∈ (l.foldl (fun a i => match get_issue s i with
        | none => a
        | some iss => dictSet a i iss) acc).map Prod.fst ↔
        j ∈ acc.map Prod.fst ∨ (j ∈ l ∧ (get_issue s j).isSome) := by
  induction l with
  | nil =>
    intro acc hwf
    exact ⟨hwf, fun j => by simp⟩
  | cons i rest ih =>
    intro acc hwf
    cases hi : get_issue s i with
    | none =>
      obtain ⟨h1, h2⟩ := ih acc hwf
      constructor
      · simpa [hi] using h1
      · intro j
        simp only [List.foldl_cons, hi]
        rw [h2 j]
        by_cases hj : j = i
        · subst hj
          simp [hi, List.mem_cons]
        · simp [List.mem_cons, hj]
    | some iss =>
      have hwf2 : DictWF (dictSet acc i iss) := dictWF_dictSet _ _ _ hwf
      obtain ⟨h1, h2⟩ := ih (dictSet acc i iss) hwf2
      constructor
      · simpa [hi] using h1
      · intro j
        simp only [List.foldl_cons, hi]
        rw [h2 j, keys_dictSet]
        by_cases hm : i ∈ acc.map Prod.fst
        · rw [if_pos hm]
          by_cases hj : j = i
          · subst hj
            simp [hm, hi, List.mem_cons]
          · simp [List.mem_cons, hj]
        · rw [if_neg hm]
          by_cases hj : j = i
          · subst hj
            simp [hi, List.mem_cons, List.mem_append]
          · simp [List.mem_append, List.mem_cons, hj]

/-- The `issues` dictionary collected by `render_markdown` over a list of
columns: well-formed, with exactly the keys listed in one of the columns
whose documents resolve (plus whatever was already accumulated). -/
theorem collectCols_spec (s : Store) (cols : List String) :
    ∀ acc r, DictWF acc → collectCols s acc cols = some r →
      DictWF r ∧
      ∀ j, j ∈ r.map Prod.fst ↔ j ∈ acc.map Prod.fst ∨
        ((∃ c ∈ cols, ∃ l, dictGet s.board c = some l ∧ j ∈ l) ∧
          (get_issue s j).isSome) := by
  induction cols with
  | nil =>
    intro acc r hwf h
    simp only [collectCols, Option.some.injEq] at h
    subst h
    exact ⟨hwf, fun j => by simp⟩
  | cons c rest ih =>
    intro acc r hwf h
    cases hc : dictGet s.board c with
    | none => simp [collectCols, hc] at h
    | some l =>
      simp only [collectCols, hc] at h
      obtain ⟨hwfF, hmemF⟩ := foldIns_spec s l acc hwf
      obtain ⟨hwfr, hmemr⟩ := ih _ r hwfF h
      refine ⟨hwfr, fun j => ?_⟩
      rw [hmemr j, hmemF j]
      constructor
      · rintro ((hj | ⟨hjl, hres⟩) | ⟨⟨c2, hc2, l2, hl2, hj2⟩, hres⟩)
        · exact Or.inl hj
        · exact Or.inr ⟨⟨c, by simp, l, hc, hjl⟩, hres⟩
        · exact Or.inr ⟨⟨c2, by simp [hc2], l2, hl2, hj2⟩, hres⟩
      · rintro (hj | ⟨⟨c2, hc2, l2, hl2, hj2⟩, hres⟩)
        · exact Or.inl (Or.inl hj)
        · rcases List.mem_cons.mp hc2 with h3 | hc2r
          · subst h3
            rw [hc] at hl2
            obtain h4 := Option.some.inj hl2
            subst h4
            exact Or.inl (Or.inr ⟨hj2, hres⟩)
          · exact Or.inr ⟨⟨c2, hc2r, l2, hl2, hj2⟩, hres⟩

/-- The `total` of `render_markdown` (size of its `issues` dictionary)
equals the spec's total: the number of distinct listed ids whose documents
resolve. -/
theorem collectCols_total (s : Store) (r : List (Nat × Issue))
    (h : collectCols s [] fixedColumns = some r) :
    r.length = specTotal s := by
  obtain ⟨hwf, hmem⟩ := collectCols_spec s fixedColumns [] r (by simp [DictWF]) h
  have hkeys : ∀ j, j ∈ r.map Prod.fst ↔
      ((∃ c ∈ fixedColumns, ∃ l, dictGet s.board c = some l ∧ j ∈ l) ∧
        (get_issue s j).isSome) := by
    intro j
    rw [hmem j]
    simp
  have hgetD : ∀ (c : String) (j : Nat),
      j ∈ (dictGet s.board c).getD [] ↔
        ∃ l, dictGet s.board c = some l ∧ j ∈ l := by
    intro c j
    cases hdc : dictGet s.board c <;> simp
  have hLnodup : ((fixedColumns.map fun c =>
      (dictGet s.board c).getD []).flatten.dedup.filter
        fun i => (get_issue s i).isSome).Nodup :=
    (List.nodup_dedup _).filter _
  have hLmem : ∀ j, j ∈ ((fixedColumns.map fun c =>
      (dictGet s.board c).getD []).flatten.dedup.filter
        fun i => (get_issue s i).isSome) ↔
      ((∃ c ∈ fixedColumns, ∃ l, dictGet s.board c = some l ∧ j ∈ l) ∧
        (get_issue s j).isSome) := by
    intro j
    simp only [List.mem_filter, List.mem_dedup, List.mem_flatten, List.mem_map]
    constructor
    · rintro ⟨⟨a, ⟨c, hc, h2⟩, hja⟩, hres⟩
      subst h2
      exact ⟨⟨c, hc, (hgetD c j).mp hja⟩, hres⟩
    · rintro ⟨⟨c, hc, hl⟩, hres⟩
      exact ⟨⟨(dictGet s.board c).getD [], ⟨c, hc, rfl⟩, (hgetD c j).mpr hl⟩, hres⟩
  have hsame : ∀ j, j ∈ r.map Prod.fst ↔
      j ∈ ((fixedColumns.map fun c =>
        (dictGet s.board c).getD []).flatten.dedup.filter
          fun i => (get_issue s i).isSome) := by
    intro j
    rw [hkeys j, hLmem j]
  have hfin : (r.map Prod.fst).toFinset =
      ((fixedColumns.map fun c =>
        (dictGet s.board c).getD []).flatten.dedup.filter
          fun i => (get_issue s i).isSome).toFinset := by
    apply Finset.ext
    intro j
    simp only [List.mem_toFinset]
    exact hsame j
  have h2 := List.toFinset_card_of_nodup hwf
  have h3 := List.toFinset_card_of_nodup hLnodup
  calc r.length = (r.map Prod.fst).length := (List.length_map r Prod.fst).symm
    _ = (r.map Prod.fst).toFinset.card := h2.symm
    _ = _ := by rw [hfin]
    _ = _ := h3

/-- C7: the summary of `render_markdown` has `progress = 0` when the total
is 0 (no division by zero), and `progress = round(done_count / total * 100)`
(exact rational value, ties to even as Python's `round`) otherwise, where
`done_count` is the raw length of the done column and `total` is the number
of distinct listed issues whose documents actually resolve — not the raw
sum of the column lengths. -/
theorem render_markdown_summary_spec (s : Store)
    (total done_count progress : Nat)
    (h : render_markdown_summary s = some (total, done_count, progress)) :
    (total = 0 → progress = 0) ∧
    (0 < total → progress = roundHalfEven (done_count * 100) total) ∧
    (∃ dl, dictGet s.board "done" = some dl ∧ done_count = dl.length) ∧
    total = specTotal s := by
  cases hcc : collectCols s [] fixedColumns with
  | none => simp [render_markdown_summary, hcc] at h
  | some issues =>
    cases hdl : dictGet s.board "done" with
    | none => simp [render_markdown_summary, hcc, hdl] at h
    | some dl =>
      simp only [render_markdown_summary, hcc, hdl, Option.some.injEq,
        Prod.mk.injEq] at h
      obtain ⟨h1, h2, h3⟩ := h
      subst h1
      subst h2
      refine ⟨?_, ?_, ⟨dl, rfl, rfl⟩, collectCols_total s issues hcc⟩
      · intro h0
        rw [← h3]
        simp [h0]
      · intro h0
        rw [← h3]
        rw [if_pos h0]

/-- C7 witness: on `storeB`, one listed issue resolves (total 1, not the
raw count 2), the done column has raw length 2, and the progress is the
rounded 200 percent. -/
theorem render_markdown_summary_spec_witness :
    render_markdown_summary storeB = some (1, 2, 200) ∧
    ((1 : Nat) = 0 → (200 : Nat) = 0) ∧
    (0 < (1 : Nat) → (200 : Nat) = roundHalfEven (2 * 100) 1) ∧
    (∃ dl, dictGet storeB.board "done" = some dl ∧ (2 : Nat) = dl.length) ∧
    (1 : Nat) = specTotal storeB :=
  ⟨by decide, render_markdown_summary_spec storeB 1 2 200 (by decide)⟩

theorem mem_dictSet {κ α : Type} [DecidableEq κ] {d : List (κ × α)}
    {k : κ} {v : α} {p : κ × α} (hp : p ∈ dictSet d k v) :
    p = (k, v) ∨ p ∈ d := by
  induction d with
  | nil => simpa [dictSet] using hp
  | cons q rest ih =>
    obtain ⟨k0, v0⟩ := q
    by_cases h0 : k0 = k
    · subst h0
      simp only [dictSet, if_pos rfl] at hp
      rcases List.mem_cons.mp hp with h1 | h1
      · exact Or.inl h1
      · exact Or.inr (List.mem_cons_of_mem _ h1)
    · simp only [dictSet, if_neg h0] at hp
      rcases List.mem_cons.mp hp with h1 | h1
      · exact Or.inr (h1 ▸ List.mem_cons_self _ _)
      · rcases ih h1 with h2 | h2
        · exact Or.inl h2
        · exact Or.inr (List.mem_cons_of_mem _ h2)

/-- Common final step of the invariant preservation argument for
`update_issue_status`: if the intermediate board `b1` (after the removal
step) is well-formed, no longer lists the moved id, keeps every other
listed id exactly once, keeps every other issue's status column, and bounds
its ids by the counter, then appending the id to the resolved target column
and rewriting the issue document re-establishes the full store invariant. -/
theorem storeInv_update_post (s : Store) (id : Nat) (iss : Issue)
    (st t : String) (b1 : Board) (ln : List Nat)
    (hiss : dictGet s.issues id = some iss)
    (hw2 : DictWF s.issues)
    (hc4 : ∀ q ∈ s.issues, q.1 < s.config.next_issue_id)
    (hF1 : DictWF b1)
    (hF3 : boardCount b1 id = 0)
    (hF2 : ∀ p ∈ b1, ∀ i ∈ p.2, i ≠ id → boardCount b1 i = 1)
    (hF5 : ∀ q ∈ s.issues, q.1 ≠ id → onlyIn b1 q.2.status q.1)
    (hF6 : ∀ p ∈ b1, ∀ i ∈ p.2, i < s.config.next_issue_id)
    (hln : dictGet b1 st = some ln) :
    StoreInv { config := s.config
               board := dictSet b1 st (ln ++ [id])
               issues := dictSet s.issues id
                 { iss with status := st, updated := t } } ∧
    boardCount (dictSet b1 st (ln ++ [id])) id = 1 := by
  have hnotln : id ∉ ln := by
    intro hm
    have h1 := dictGet_count_le hln id
    have h2 := List.count_pos_iff.2 hm
    omega
  have hnotb1 : ∀ p ∈ b1, id ∉ p.2 := (boardCount_eq_zero_iff b1 id).mp hF3
  have hbc2 : ∀ j, boardCount (dictSet b1 st (ln ++ [id])) j =
      boardCount b1 j + List.count j [id] := by
    intro j
    have h1 := boardCount_dictSet hln (ln ++ [id]) j
    rw [List.count_append] at h1
    omega
  have hid1 : boardCount (dictSet b1 st (ln ++ [id])) id = 1 := by
    rw [hbc2 id, hF3]
    simp
  have hmidb1 : (st, ln) ∈ b1 := dictGet_mem hln
  have hlift : ∀ q ∈ s.issues, q.1 ≠ id →
      onlyIn (dictSet b1 st (ln ++ [id])) q.2.status q.1 := by
    intro q hq hneq p hp hm
    rcases mem_dictSet hp with h1 | h1
    · subst h1
      rcases List.mem_append.mp hm with h2 | h2
      · exact hF5 q hq hneq (st, ln) hmidb1 h2
      · simp only [List.mem_singleton] at h2
        exact absurd h2 hneq
    · exact hF5 q hq hneq p h1 hm
  have hidlt : id < s.config.next_issue_id := hc4 (id, iss) (dictGet_mem hiss)
  obtain ⟨f1, f2, hf, hnef, hsetF⟩ := dictSet_split hiss
  have hf2ne : ∀ q ∈ f2, q.1 ≠ id := dictWF_split_right hw2 hf
  refine ⟨⟨dictWF_dictSet _ _ _ hF1, dictWF_dictSet _ _ _ hw2, ?_, ?_, ?_, ?_⟩,
    hid1⟩
  · intro p hp i hi
    rcases mem_dictSet hp with h1 | h1
    · subst h1
      rcases List.mem_append.mp hi with h2 | h2
      · have hne : i ≠ id := fun hh => hnotln (hh ▸ h2)
        rw [hbc2 i, List.count_eq_zero.mpr (by simp [hne])]
        have := hF2 (st, ln) hmidb1 i h2 hne
        omega
      · simp only [List.mem_singleton] at h2
        subst h2
        exact hid1
    · have hne : i ≠ id := fun hh => hnotb1 p h1 (hh ▸ hi)
      rw [hbc2 i, List.count_eq_zero.mpr (by simp [hne])]
      have := hF2 p h1 i hi hne
      omega
  · intro q hq
    rw [hsetF] at hq
    rcases List.mem_append.mp hq with h1 | h1
    · have hneq : q.1 ≠ id := hnef q h1
      have hqold : q ∈ s.issues := by
        rw [hf]
        exact List.mem_append_left _ h1
      exact hlift q hqold hneq
    · rcases List.mem_cons.mp h1 with h2 | h2
      · subst h2
        show onlyIn (dictSet b1 st (ln ++ [id])) st id
        intro p hp hm
        rcases mem_dictSet hp with h3 | h3
        · subst h3
          rfl
        · exact absurd hm (hnotb1 p h3)
      · have hneq : q.1 ≠ id := hf2ne q h2
        have hqold : q ∈ s.issues := by
          rw [hf]
          exact List.mem_append_right _ (List.mem_cons_of_mem _ h2)
        exact hlift q hqold hneq
  · intro p hp i hi
    rcases mem_dictSet hp with h1 | h1
    · subst h1
      rcases List.mem_append.mp hi with h2 | h2
      · exact hF6 (st, ln) hmidb1 i h2
      · simp only [List.mem_singleton] at h2
        subst h2
        exact hidlt
    · exact hF6 p h1 i hi
  · intro q hq
    rcases mem_dictSet hq with h1 | h1
    · subst h1
      exact hidlt
    · exact hc4 q h1

/-- `create_issue` preserves the store invariant; the new id lands on the
board exactly once. -/
theorem storeInv_create (s : Store) (hInv : StoreInv s) (a : CreateArgs)
    (t : String) (id : Nat) (s2 : Store)
    (h : create_issue s a t = some (id, s2)) :
    StoreInv s2 ∧ boardCount s2.board id = 1 := by
  obtain ⟨w1, w2, c1, c2, c3, c4⟩ := hInv
  obtain ⟨bl, hbl, hid, hs⟩ := create_issue_some h
  subst hid
  subst hs
  have hfresh : boardCount s.board s.config.next_issue_id = 0 := by
    rw [boardCount_eq_zero_iff]
    intro p hp hm
    exact absurd (c3 p hp _ hm) (lt_irrefl _)
  have hbc : ∀ j, boardCount (dictSet s.board "backlog"
      (bl ++ [s.config.next_issue_id])) j =
      boardCount s.board j + List.count j [s.config.next_issue_id] := by
    intro j
    have h1 := boardCount_dictSet hbl (bl ++ [s.config.next_issue_id]) j
    rw [List.count_append] at h1
    omega
  have hmidb : ("backlog", bl) ∈ s.board := dictGet_mem hbl
  have hbn1 : boardCount (dictSet s.board "backlog"
      (bl ++ [s.config.next_issue_id])) s.config.next_issue_id = 1 := by
    rw [hbc, hfresh]
    simp
  refine ⟨⟨dictWF_dictSet _ _ _ w1, dictWF_dictSet _ _ _ w2, ?_, ?_, ?_, ?_⟩,
    hbn1⟩
  · intro p hp i hi
    rcases mem_dictSet hp with h1 | h1
    · subst h1
      rcases List.mem_append.mp hi with h2 | h2
      · have hne : i ≠ s.config.next_issue_id :=
          Nat.ne_of_lt (c3 ("backlog", bl) hmidb i h2)
        rw [hbc i, List.count_eq_zero.mpr (by simp [hne])]
        have := c1 ("backlog", bl) hmidb i h2
        omega
      · simp only [List.mem_singleton] at h2
        subst h2
        exact hbn1
    · have hne : i ≠ s.config.next_issue_id := Nat.ne_of_lt (c3 p h1 i hi)
      rw [hbc i, List.count_eq_zero.mpr (by simp [hne])]
      have := c1 p h1 i hi
      omega
  · intro q hq
    rcases mem_dictSet hq with h1 | h1
    · subst h1
      show onlyIn (dictSet s.board "backlog" (bl ++ [s.config.next_issue_id]))
        "backlog" s.config.next_issue_id
      intro p hp hm
      rcases mem_dictSet hp with h2 | h2
      · subst h2
        rfl
      · exact absurd (c3 p h2 _ hm) (lt_irrefl _)
    · have hqlt := c4 q h1
      have hql := c2 q h1
      intro p hp hm
      rcases mem_dictSet hp with h2 | h2
      · subst h2
        rcases List.mem_append.mp hm with h3 | h3
        · exact hql ("backlog", bl) hmidb h3
        · simp only [List.mem_singleton] at h3
          exact absurd h3 (Nat.ne_of_lt hqlt)
      · exact hql p h2 hm
  · intro p hp i hi
    rcases mem_dictSet hp with h1 | h1
    · subst h1
      rcases List.mem_append.mp hi with h2 | h2
      · exact Nat.lt_succ_of_lt (c3 ("backlog", bl) hmidb i h2)
      · simp only [List.mem_singleton] at h2
        subst h2
        exact Nat.lt_succ_self _
    · exact Nat.lt_succ_of_lt (c3 p h1 i hi)
  · intro q hq
    rcases mem_dictSet hq with h1 | h1
    · subst h1
      exact Nat.lt_succ_self _
    · exact Nat.lt_succ_of_lt (c4 q h1)

/-- `update_issue_status` preserves the store invariant; the moved id ends
on the board exactly once. -/
theorem storeInv_update (s : Store) (hInv : StoreInv s) (id : Nat)
    (st t : String) (s2 : Store)
    (h : update_issue_status s id st t = some s2) :
    StoreInv s2 ∧ boardCount s2.board id = 1 := by
  obtain ⟨w1, w2, c1, c2, c3, c4⟩ := hInv
  cases hiss : dictGet s.issues id with
  | none => simp [update_issue_status, hiss] at h
  | some iss =>
    cases hold : dictGet s.board iss.status with
    | none => simp [update_issue_status, hiss, hold] at h
    | some l0 =>
      by_cases hz : boardCount s.board id = 0
      · have hnin : id ∉ l0 := by
          intro hm
          have h1 := dictGet_count_le hold id
          have h2 := List.count_pos_iff.2 hm
          omega
        cases hln : dictGet s.board st with
        | none =>
          simp [update_issue_status, hiss, hold, hnin, hln] at h
        | some ln =>
          have hnotln : id ∉ ln := by
            intro hm
            have h1 := dictGet_count_le hln id
            have h2 := List.count_pos_iff.2 hm
            omega
          simp only [update_issue_status, hiss, hold, if_neg hnin, hln,
            if_neg hnotln, Option.some.injEq] at h
          subst h
          exact storeInv_update_post s id iss st t s.board ln hiss w2 c4 w1 hz
            (fun p hp i hi _ => c1 p hp i hi) (fun q hq _ => c2 q hq) c3 hln
      · obtain ⟨p0, hp0, hp0m⟩ : ∃ p ∈ s.board, id ∈ p.2 := by
          by_contra hcon
          push_neg at hcon
          exact hz ((boardCount_eq_zero_iff s.board id).mpr hcon)
        have hbc1 : boardCount s.board id = 1 := c1 p0 hp0 id hp0m
        have hps : p0.1 = iss.status :=
          c2 (id, iss) (dictGet_mem hiss) p0 hp0 hp0m
        have hpv : p0.2 = l0 := by
          have hgv := dictGet_of_mem_wf w1 hp0
          rw [hps, hold] at hgv
          exact (Option.some.inj hgv).symm
        have hmm : id ∈ l0 := hpv ▸ hp0m
        have hcl0 : l0.count id = 1 := by
          have h1 := dictGet_count_le hold id
          have h2 := List.count_pos_iff.2 hmm
          omega
        have hb1z : boardCount (dictSet s.board iss.status (l0.erase id))
            id = 0 := by
          have h1 := boardCount_dictSet hold (l0.erase id) id
          rw [List.count_erase_self] at h1
          omega
        have hbcne : ∀ j, j ≠ id → boardCount (dictSet s.board iss.status
            (l0.erase id)) j = boardCount s.board j := by
          intro j hj
          have h1 := boardCount_dictSet hold (l0.erase id) j
          rw [List.count_erase_of_ne hj] at h1
          omega
        have hmidG : (iss.status, l0) ∈ s.board := dictGet_mem hold
        have hF2 : ∀ p ∈ dictSet s.board iss.status (l0.erase id),
            ∀ i ∈ p.2, i ≠ id → boardCount (dictSet s.board iss.status
              (l0.erase id)) i = 1 := by
          intro p hp i hi hne
          rw [hbcne i hne]
          rcases mem_dictSet hp with h1 | h1
          · subst h1
            exact c1 (iss.status, l0) hmidG i (List.mem_of_mem_erase hi)
          · exact c1 p h1 i hi
        have hF5 : ∀ q ∈ s.issues, q.1 ≠ id →
            onlyIn (dictSet s.board iss.status (l0.erase id))
              q.2.status q.1 := by
          intro q hq hne p hp hm
          rcases mem_dictSet hp with h1 | h1
          · subst h1
            exact c2 q hq (iss.status, l0) hmidG (List.mem_of_mem_erase hm)
          · exact c2 q hq p h1 hm
        have hF6 : ∀ p ∈ dictSet s.board iss.status (l0.erase id),
            ∀ i ∈ p.2, i < s.config.next_issue_id := by
          intro p hp i hi
          rcases mem_dictSet hp with h1 | h1
          · subst h1
            exact c3 (iss.status, l0) hmidG i (List.mem_of_mem_erase hi)
          · exact c3 p h1 i hi
        cases hln : dictGet (dictSet s.board iss.status (l0.erase id)) st with
        | none =>
          simp [update_issue_status, hiss, hold, hmm, hln] at h
        | some ln =>
          have hnotln : id ∉ ln := by
            intro hm2
            have h1 := dictGet_count_le hln id
            have h2 := List.count_pos_iff.2 hm2
            omega
          simp only [update_issue_status, hiss, hold, if_pos hmm, hln,
            if_neg hnotln, Option.some.injEq] at h
          subst h
          exact storeInv_update_post s id iss st t _ ln hiss w2 c4
            (dictWF_dictSet _ _ _ w1) hb1z hF2 hF5 hF6 hln

/-- C2: both operations preserve the invariant that each issue id appears
in exactly one board column: from any store satisfying the invariant
(every reachable store does), a successful `create_issue` yields an
invariant store with the new id in exactly one column, and a successful
`update_issue_status` yields an invariant store with the moved id in
exactly one column. -/
theorem operations_preserve_invariant (s : Store) (hInv : StoreInv s) :
    (∀ a t id s2, create_issue s a t = some (id, s2) →
      StoreInv s2 ∧ boardCount s2.board id = 1) ∧
    (∀ id st t s2, update_issue_status s id st t = some s2 →
      StoreInv s2 ∧ boardCount s2.board id = 1) :=
  ⟨fun a t id s2 h => storeInv_create s hInv a t id s2 h,
   fun id st t s2 h => storeInv_update s hInv id st t s2 h⟩

/-- C2 witness: `storeA` satisfies the invariant, and creating an issue on
it yields `storeA1`, again invariant, with the new id 2 in exactly one
column. -/
theorem operations_preserve_invariant_witness :
    StoreInv storeA ∧ (StoreInv storeA1 ∧ boardCount storeA1.board 2 = 1) :=
  ⟨by decide,
   (operations_preserve_invariant storeA (by decide)).1 argsA "t1" 2 storeA1
     (by decide)⟩
